import Mathlib

/-!
Verification of the gqlclient code generator and client library.

The definitions below shallowly embed:
* `genType`, `genDef`, `collectFragments`, `genOp` and the driver loop of
  `cmd/gqlclientgen` (the canonical revision of the generator),
* `Operation.Var` and the response phase of `Client.Execute` from the
  client library (`client.go`, `error.go`).

String handling mirrors the Go standard library on ASCII input
(`strings.ToLower`, `strings.Title`, `strings.Split`).
-/

namespace Gql

/-- GraphQL type references (`ast.Type`): either a named leaf or a list
wrapper, each carrying its own non-null flag. -/
inductive GqlType where
  | named (name : String) (nonNull : Bool)
  | list (elem : GqlType) (nonNull : Bool)
deriving DecidableEq, Repr

/-- The `NonNull` flag at the top of a type reference (`t.NonNull` before
any unwrapping). -/
def GqlType.topNonNull : GqlType → Bool
  | .named _ nn => nn
  | .list _ nn => nn

/-- Kind of a schema type definition (`ast.DefinitionKind`). -/
inductive DefinitionKind where
  | scalar | object | interface_ | union | enum | inputObject
deriving DecidableEq, Repr

/-- The lowercased kind string, as produced by
`strings.ToLower(string(def.Kind))` on the gqlparser kind constants. -/
def DefinitionKind.lower : DefinitionKind → String
  | .scalar => "scalar"
  | .object => "object"
  | .interface_ => "interface"
  | .union => "union"
  | .enum => "enum"
  | .inputObject => "input_object"

/-- A schema field (`ast.FieldDefinition`): the `deprecated` flag models
`hasDeprecated(field.Directives)`. -/
structure FieldDef where
  name : String
  description : String
  type : GqlType
  deprecated : Bool
deriving DecidableEq, Repr

/-- An enum value (`ast.EnumValueDefinition`). -/
structure EnumValueDef where
  name : String
  description : String
  deprecated : Bool
deriving DecidableEq, Repr

/-- A schema type definition (`ast.Definition`). -/
structure Definition where
  kind : DefinitionKind
  name : String
  builtIn : Bool
  description : String
  fields : List FieldDef
  enumValues : List EnumValueDef
deriving DecidableEq, Repr

/-- The Go types the generator can emit for a GraphQL type
(the `jen.Code` value built by `genType`). -/
inductive GoType where
  | int32
  | float64
  | string
  | bool
  | qual (pkg : String) (name : String)
  | mapStringInterface
  | iface
  | id (name : String)
  | slice (t : GoType)
  | ptr (t : GoType)
deriving DecidableEq, Repr

/-- Number of pointer (indirection) layers anywhere in a Go type. -/
def GoType.ptrCount : GoType → Nat
  | .slice t => t.ptrCount
  | .ptr t => t.ptrCount + 1
  | _ => 0

def gqlclientPkg : String := "git.sr.ht/~emersion/gqlclient"

/-- Strip the list layers of a type reference, returning the number of
layers stripped together with the leaf name and the leaf's non-null flag
(the loop `for t.Elem != nil` in `genType`). -/
def stripLists : GqlType → Nat × String × Bool
  | .named n nn => (0, n, nn)
  | .list e _ => let (k, n, nn) := stripLists e; (k + 1, n, nn)

/-- Look up a type definition by name in the schema's type map
(`schema.Types[name]`). -/
def lookupType (types : List (String × Definition)) (name : String) :
    Option Definition :=
  (types.find? (fun p => p.1 = name)).map Prod.snd

/-- The base Go type chosen by the `switch def.Name` in `genType`. -/
def genBase (d : Definition) : Except String GoType :=
  match d.name with
  | "Int" => .ok .int32
  | "Float" => .ok .float64
  | "String" => .ok .string
  | "Boolean" => .ok .bool
  | "ID" => .ok .string
  | "Time" => .ok (.qual gqlclientPkg "Time")
  | "Map" => .ok .mapStringInterface
  | "Upload" => .ok (.qual gqlclientPkg "Upload")
  | "Any" => .ok .iface
  | _ =>
    if d.builtIn then .error ("unsupported built-in type: " ++ d.name)
    else .ok (.id d.name)

/-- Whether the `!t.NonNull` branch of `genType` skips the pointer for this
leaf name (`case "ID", "Time", "Map", "Any"`). -/
def zeroValueName (n : String) : Bool :=
  n = "ID" || n = "Time" || n = "Map" || n = "Any"

/-- Apply `n` slice layers (the `jen.Index()` prefix entries). -/
def applySlices : Nat → GoType → GoType
  | 0, g => g
  | n + 1, g => .slice (applySlices n g)

/-- Embedding of `genType` (part_004 lines 52-112): map one GraphQL type
reference to a Go type, deciding list nesting and pointer indirection. -/
def genType (types : List (String × Definition)) (t : GqlType) :
    Except String GoType :=
  let (nLists, name, nonNull) := stripLists t
  let toplevel := nLists == 0
  match lookupType types name with
  | none => .error ("unknown type name " ++ name)
  | some d =>
    match genBase d with
    | .error e => .error e
    | .ok g =>
      let g' :=
        if !nonNull then
          if zeroValueName d.name then g else .ptr g
        else if toplevel then
          match d.kind with
          | .object | .interface_ => .ptr g
          | _ => g
        else g
      .ok (applySlices nLists g')

/-- `strings.Split(s, "_")` on character lists: split on every underscore,
keeping empty segments. -/
def splitUnd : List Char → List (List Char)
  | [] => [[]]
  | c :: rest =>
    match splitUnd rest with
    | [] => [[]]
    | w :: ws => if c = '_' then [] :: w :: ws else (c :: w) :: ws

/-- Go's `isSeparator` on ASCII characters: alphanumerics and the
underscore are not separators, every other character is. -/
def isGoSeparator (c : Char) : Bool := !(c.isAlphanum || c = '_')

/-- Helper for `goTitle`: the flag records whether the previous character
was a separator (`prev` in `strings.Title`). -/
def goTitleAux : Bool → List Char → List Char
  | _, [] => []
  | prevSep, c :: rest =>
    (if prevSep then c.toUpper else c) :: goTitleAux (isGoSeparator c) rest

/-- `strings.Title` on a character list (ASCII): title-case every
character that follows a separator; the initial previous rune is a space,
a separator, so the first character is title-cased. -/
def goTitle (l : List Char) : List Char := goTitleAux true l

/-- `strings.Title` on strings. -/
def goTitleS (s : String) : String := ⟨goTitle s.data⟩

/-- The enum constant identifier derivation in `genDef`'s Enum branch
(part_004 lines 134-141), on character lists: lowercase the value name,
split on underscores, Title-case each word, concatenate, and prefix with
the enum's name. -/
def enumConstIdentL (enumName valName : List Char) : List Char :=
  enumName ++ ((splitUnd (valName.map Char.toLower)).map goTitle).flatten

/-- The enum constant identifier derivation on strings. -/
def enumConstIdent (enumName valName : String) : String :=
  ⟨enumConstIdentL enumName.data valName.data⟩

/-- An ASCII uppercase letter. -/
def UpperChar (c : Char) : Prop := 65 ≤ c.toNat ∧ c.toNat ≤ 90

/-- An ASCII lowercase letter. -/
def LowerChar (c : Char) : Prop := 97 ≤ c.toNat ∧ c.toNat ≤ 122

/-- A nonempty word of ASCII uppercase letters. -/
def UpperWord (w : List Char) : Prop := w ≠ [] ∧ ∀ c ∈ w, UpperChar c

/-- Join words with single underscores:
`joinUnd [w1, w2]` is `w1 ++ "_" ++ w2`. -/
def joinUnd : List (List Char) → List Char
  | [] => []
  | [w] => w
  | w :: ws => w ++ '_' :: joinUnd ws

/-- `l` is a strict upper-snake-case name with word list `ws`: at least
one word, every word a nonempty run of ASCII uppercase letters, and single
underscores between words. -/
def SnakeName (ws : List (List Char)) (l : List Char) : Prop :=
  ws ≠ [] ∧ (∀ w ∈ ws, UpperWord w) ∧ l = joinUnd ws

/-- A capitalized word: an uppercase head followed by lowercase letters
(the shape produced by Title-casing a lowercased word). -/
def CapWord (w : List Char) : Prop :=
  ∃ c t, w = c :: t ∧ UpperChar c ∧ ∀ x ∈ t, LowerChar x

instance (c : Char) : Decidable (UpperChar c) := by
  unfold UpperChar
  infer_instance

instance (c : Char) : Decidable (LowerChar c) := by
  unfold LowerChar
  infer_instance

instance (w : List Char) : Decidable (UpperWord w) := by
  unfold UpperWord
  infer_instance

instance (ws : List (List Char)) (l : List Char) :
    Decidable (SnakeName ws l) := by
  unfold SnakeName
  infer_instance

/-- One generated enum constant (`const EnumNameValue EnumName = "VALUE"`,
with its description comment). -/
structure EnumConst where
  desc : String
  ident : String
  value : String
deriving DecidableEq, Repr

/-- One generated struct field: description comment, Go field name, Go
type, and the `json:"..."` tag string. -/
structure StructField where
  desc : String
  name : String
  type : GoType
  jsonTag : String
deriving DecidableEq, Repr

/-- One case of the generated `UnmarshalJSON` switch on `__typename`. -/
inductive CaseAction where
  | assignNew (typeName : String)
  | retNil
  | retErr (msg : String)
deriving DecidableEq, Repr

/-- The abstract declarations produced by the generator (the `jen`
statements built by `genDef` and `genOp`). -/
inductive Decl where
  | typeString (name : String)
  | enumDecl (name : String) (consts : List EnumConst)
  | structDecl (name : String) (fields : List StructField)
  | ifaceUnionDecl (name : String) (fields : List StructField)
      (cases : List (String × CaseAction)) (valueTypeName : String)
      (possibleTypes : List String)
  | isMethod (recv : GoType) (ifaceName : String)
  | opFunc (name : String) (params : List (String × GoType))
      (queryStr : String) (binds : List String)
      (outFields : List (String × GoType))
      (dataFields : List (String × GoType))
deriving DecidableEq, Repr

/-- An emitted item: the declaration together with the description comment
`genDescription` places in front of it. -/
structure Emit where
  desc : String
  decl : Decl
deriving DecidableEq, Repr

mutual
/-- Selections (`ast.Selection`): a fragment spread carries its resolved
definition's name and selection set (`sel.Definition`); a field selection
carries the resolved schema type of the field
(`field.Definition.Type`). -/
inductive Selection where
  | field (name : String) (aliasName : String) (fieldType : GqlType)
      (sels : SelectionSet) : Selection
  | spread (fragName : String) (fragSels : SelectionSet) : Selection
  | inline (sels : SelectionSet) : Selection
/-- A selection set (`ast.SelectionSet`, a slice of selections). -/
inductive SelectionSet where
  | nil : SelectionSet
  | cons (s : Selection) (rest : SelectionSet) : SelectionSet
end

/-- A parsed operation (`ast.OperationDefinition`): name, variable
definitions in order, and the selection set. -/
structure OperationDef where
  name : String
  varDefs : List (String × GqlType)
  selSet : SelectionSet

/-- The generation environment: the schema's type map (with an iteration
order), the root types, and the external collaborators
(`schema.GetPossibleTypes`, `schema.GetImplements`, the gqlparser
formatter). -/
structure GenEnv where
  types : List (String × Definition)
  queryName : Option String
  mutationName : Option String
  subscriptionName : Option String
  possibleTypes : String → List String
  implements : String → List String
  formatQuery : OperationDef → List String → String

/-- The error-message prefix used in the generated decode routine
(`fmt.Sprintf("gqlclient: %v %v: ", ...)`). -/
def errPrefix (kind : DefinitionKind) (name : String) : String :=
  "gqlclient: " ++ kind.lower ++ " " ++ name ++ ": "

/-- `%q` formatting of a type name (no escaping: GraphQL names contain no
quotes or backslashes). -/
def goQuote (s : String) : String := "\"" ++ s ++ "\""

/-- The case list of the generated `UnmarshalJSON` switch (part_004 lines
205-227): one case per possible type, then the empty-`__typename` case,
which returns nil for an Interface and an error for a Union. -/
def genCases (kind : DefinitionKind) (name : String)
    (possibleTypes : List String) : List (String × CaseAction) :=
  possibleTypes.map (fun t => (t, .assignNew t)) ++
  (match kind with
   | .interface_ => [("", .retNil)]
   | .union =>
       [("", .retErr (errPrefix kind name ++ "missing __typename field"))]
   | _ => [])

/-- The default case of the generated switch: an error naming the unknown
`__typename` string. -/
def defaultCase (kind : DefinitionKind) (name : String) (tn : String) :
    CaseAction :=
  .retErr (errPrefix kind name ++ "unknown __typename " ++ goQuote tn)

/-- Go `switch` semantics on the generated case list: the first case whose
literal equals the discriminator fires, otherwise the default. -/
def runSwitch (cases : List (String × CaseAction))
    (dflt : String → CaseAction) (tn : String) : CaseAction :=
  match cases.find? (fun c => c.1 = tn) with
  | some c => c.2
  | none => dflt tn

/-- Result of the generated decode routine on the discriminator: either a
decode error, or success carrying the concrete possible-type name the
value payload was decoded into (`none` when no value was populated). -/
inductive DecodeResult where
  | ok (value : Option String)
  | err (msg : String)
deriving DecidableEq, Repr

/-- Map one switch case to its decode outcome: `base.Value = new(T)`
followed by the second `json.Unmarshal` populates a `T`; `return nil`
leaves no value; `return fmt.Errorf(...)` is a decode error. -/
def applyAction : CaseAction → DecodeResult
  | .assignNew t => .ok (some t)
  | .retNil => .ok none
  | .retErr m => .err m

/-- Discriminator behavior of the `UnmarshalJSON` routine generated for an
Interface/Union definition (part_004 lines 205-255). -/
def unmarshalDispatch (kind : DefinitionKind) (name : String)
    (possibleTypes : List String) (tn : String) : DecodeResult :=
  applyAction
    (runSwitch (genCases kind name possibleTypes) (defaultCase kind name) tn)

/-- The enum-constant loop of `genDef` (part_004 lines 130-143). -/
def genEnumConsts (enumName : String) (omitDeprecated : Bool) :
    List EnumValueDef → List EnumConst
  | [] => []
  | v :: rest =>
    if omitDeprecated && v.deprecated then
      genEnumConsts enumName omitDeprecated rest
    else
      ⟨v.description, enumConstIdent enumName v.name, v.name⟩ ::
        genEnumConsts enumName omitDeprecated rest

/-- The struct-field loop of `genDef` (part_004 lines 151-168 and
179-196): skip deprecated fields when requested, skip the fields named
`__schema` and `__type`, Title-case the name, map the type, and build the
json tag with `,omitempty` for non-NonNull fields. -/
def genFields (types : List (String × Definition)) (omitDeprecated : Bool) :
    List FieldDef → Except String (List StructField)
  | [] => .ok []
  | f :: rest =>
    if omitDeprecated && f.deprecated then
      genFields types omitDeprecated rest
    else if f.name == "__schema" || f.name == "__type" then
      genFields types omitDeprecated rest
    else
      match genType types f.type with
      | .error e => .error e
      | .ok t =>
        match genFields types omitDeprecated rest with
        | .error e => .error e
        | .ok tail =>
          .ok (⟨f.description, goTitleS f.name, t,
            f.name ++ (if !f.type.topNonNull then ",omitempty" else "")⟩ ::
            tail)

/-- Embedding of `genDef` (part_004 lines 118-265): map one schema type
definition to its generated declaration (`none` models the `nil` return
for the four convenience scalars). -/
def genDef (env : GenEnv) (d : Definition) (omitDeprecated : Bool) :
    Except String (Option Decl) :=
  match d.kind with
  | .scalar =>
    match d.name with
    | "Time" | "Map" | "Upload" | "Any" => .ok none
    | _ => .ok (some (.typeString d.name))
  | .enum =>
    .ok (some (.enumDecl d.name
      (genEnumConsts d.name omitDeprecated d.enumValues)))
  | .object | .inputObject =>
    match genFields env.types omitDeprecated d.fields with
    | .error e => .error e
    | .ok fields => .ok (some (.structDecl d.name fields))
  | .interface_ | .union =>
    let pts := env.possibleTypes d.name
    match genFields env.types omitDeprecated d.fields with
    | .error e => .error e
    | .ok fields =>
      .ok (some (.ifaceUnionDecl d.name
        (fields ++
          [⟨"Underlying value of the GraphQL " ++ d.kind.lower, "Value",
            .id (d.name ++ "Value"), "-"⟩])
        (genCases d.kind d.name pts) (d.name ++ "Value") pts))

mutual
/-- Embedding of `collectFragments` on one selection (part_004 lines
268-283): an aliased field selection panics (modelled as `.error`), a
fragment spread records the fragment's name and descends into its
selection set, field and inline-fragment selections descend. -/
def collectFragsSel (frags : Finset String) :
    Selection → Except String (Finset String)
  | .field name aliasName _ sels =>
    if name ≠ aliasName then .error "field aliases are not supported"
    else collectFrags frags sels
  | .spread fragName fragSels =>
    collectFrags (insert fragName frags) fragSels
  | .inline sels => collectFrags frags sels
/-- The `for _, sel := range selSet` loop of `collectFragments`. -/
def collectFrags (frags : Finset String) :
    SelectionSet → Except String (Finset String)
  | .nil => .ok frags
  | .cons s rest => do
    let frags2 ← collectFragsSel frags s
    collectFrags frags2 rest
end

mutual
/-- A fragment name transitively reachable from one selection: directly
spread, or reachable through a field's, a spread fragment's, or an inline
fragment's selection set. -/
inductive ReachSel : String → Selection → Prop where
  | fieldR {f name aliasName ty sels} :
      ReachSet f sels → ReachSel f (.field name aliasName ty sels)
  | spreadHere {name sels} : ReachSel name (.spread name sels)
  | spreadR {f name sels} :
      ReachSet f sels → ReachSel f (.spread name sels)
  | inlineR {f sels} : ReachSet f sels → ReachSel f (.inline sels)
/-- A fragment name transitively reachable from a selection set. -/
inductive ReachSet : String → SelectionSet → Prop where
  | head {f s rest} : ReachSel f s → ReachSet f (.cons s rest)
  | tail {f s rest} : ReachSet f rest → ReachSet f (.cons s rest)
end

/-- The parameter loop of `genOp` (part_004 lines 310-316): one typed
parameter per variable definition, in declaration order. -/
def genOpParams (types : List (String × Definition)) :
    List (String × GqlType) → Except String (List (String × GoType))
  | [] => .ok []
  | (v, t) :: rest =>
    match genType types t with
    | .error e => .error e
    | .ok gt =>
      match genOpParams types rest with
      | .error e => .error e
      | .ok tail => .ok ((v, gt) :: tail)

/-- The top-level selection loop of `genOp` (part_004 lines 318-327): each
top-level selection must be a field (anything else panics); its resolved
schema type is mapped to a Go type. -/
def genOpOuts (types : List (String × Definition)) :
    SelectionSet → Except String (List (String × GoType))
  | .nil => .ok []
  | .cons s rest =>
    match s with
    | .field name _ ftype _ =>
      match genType types ftype with
      | .error e => .error e
      | .ok t =>
        match genOpOuts types rest with
        | .error e => .error e
        | .ok tail => .ok ((name, t) :: tail)
    | _ => .error "unsupported selection"

/-- Embedding of `genOp` (part_004 lines 286-346): collect the operation's
fragment closure, format the self-contained query document (external
formatter collaborator; the Go map iteration over the collected fragments
is canonicalized to sorted order), and build the operation function
declaration. -/
def genOp (env : GenEnv) (op : OperationDef) : Except String Decl := do
  let frags ← collectFrags ∅ op.selSet
  let fragList := frags.sort (fun a b => a ≤ b)
  let queryStr := env.formatQuery op fragList
  let params ← genOpParams env.types op.varDefs
  let outs ← genOpOuts env.types op.selSet
  .ok (.opFunc (goTitleS op.name)
    ([("client", .ptr (.qual gqlclientPkg "Client")),
      ("ctx", .qual "context" "Context")] ++ params)
    queryStr (op.varDefs.map Prod.fst)
    (outs ++ [("err", .id "error")])
    (outs.map (fun p => (goTitleS p.1, p.2))))

/-- The driver's type-name collection loop (part_004 lines 407-413): skip
built-in definitions and the root operation types (the Go pointer
comparisons `def == schema.Query` etc. are modelled as name comparison
with the root type names). -/
def collectTypeNames (env : GenEnv) : List String :=
  env.types.filterMap (fun p =>
    if p.2.builtIn || env.queryName == some p.2.name ||
        env.mutationName == some p.2.name ||
        env.subscriptionName == some p.2.name then none
    else some p.2.name)

/-- `sort.Strings` (part_004 line 415). -/
def sortStrings (l : List String) : List String :=
  l.mergeSort (fun a b => decide (a ≤ b))

/-- The `schema.GetImplements` loop of the driver (part_004 lines
423-425): one `isX` marker-method declaration per implemented
interface/union, with receiver type `genType(schema,
ast.NamedType(def.Name, nil))`. -/
def genImpls (env : GenEnv) (defName : String) :
    List String → Except String (List Emit)
  | [] => .ok []
  | ifc :: rest =>
    match genType env.types (.named defName false) with
    | .error e => .error e
    | .ok recv =>
      match genImpls env defName rest with
      | .error e => .error e
      | .ok tail => .ok (⟨"", .isMethod recv ifc⟩ :: tail)

/-- One iteration of the driver's definition loop (part_004 lines
417-426): look the name up in the schema map, generate its declaration
(with the description comment) unless `genDef` returned nil, then the
marker methods. -/
def genDefEmit (env : GenEnv) (omitDeprecated : Bool) (name : String) :
    Except String (List Emit) :=
  match lookupType env.types name with
  | none => .error ("unknown type name " ++ name)
  | some d =>
    match genDef env d omitDeprecated with
    | .error e => .error e
    | .ok stmt =>
      match genImpls env d.name (env.implements d.name) with
      | .error e => .error e
      | .ok impls =>
        .ok ((match stmt with
          | none => []
          | some decl => [⟨d.description, decl⟩]) ++ impls)

/-- The driver's definition loop over the sorted names. -/
def genAllDefs (env : GenEnv) (omitDeprecated : Bool) :
    List String → Except String (List Emit)
  | [] => .ok []
  | n :: rest =>
    match genDefEmit env omitDeprecated n with
    | .error e => .error e
    | .ok items =>
      match genAllDefs env omitDeprecated rest with
      | .error e => .error e
      | .ok tail => .ok (items ++ tail)

/-- The driver's operation loop (part_004 lines 428-432), over documents
in supply order and operations in document order. -/
def genAllOps (env : GenEnv) :
    List OperationDef → Except String (List Emit)
  | [] => .ok []
  | op :: rest =>
    match genOp env op with
    | .error e => .error e
    | .ok d =>
      match genAllOps env rest with
      | .error e => .error e
      | .ok tail => .ok (⟨"", d⟩ :: tail)

/-- Embedding of the driver `main` (part_004 lines 404-433): collect
non-built-in, non-root type names in the schema map's iteration order,
sort them lexicographically, generate definitions in sorted order, then
operations in document-supply order. -/
def generateDecls (env : GenEnv) (omitDeprecated : Bool)
    (queries : List (List OperationDef)) : Except String (List Emit) :=
  match genAllDefs env omitDeprecated (sortStrings (collectTypeNames env)) with
  | .error e => .error e
  | .ok defs =>
    match genAllOps env queries.flatten with
    | .error e => .error e
    | .ok ops => .ok (defs ++ ops)

end Gql

namespace Client

/-- An error location (`ErrorLocation` in error.go). -/
structure ErrorLocation where
  line : Int
  column : Int
deriving DecidableEq, Repr

/-- One element of a GraphQL response path (`[]interface{}` in Go: field
names or list indices). -/
inductive PathSeg where
  | str (s : String)
  | idx (n : Int)
deriving DecidableEq, Repr

/-- A GraphQL protocol error (`Error` in error.go): message, locations,
path, and opaque extensions payload (`json.RawMessage`). -/
structure GqlError where
  message : String
  locations : List ErrorLocation
  path : List PathSeg
  extensions : String
deriving DecidableEq, Repr

/-- `(*Error).Error()` from error.go. -/
def GqlError.goError (e : GqlError) : String :=
  "gqlclient: server failure: " ++ e.message

/-- The decoded body of a GraphQL HTTP response, as in `Client.Execute`:
`respData` holds a `Data` payload and an `Errors` list. -/
structure GqlResponse (α : Type) where
  data : Option α
  errors : List GqlError

/-- Embedding of the response phase of `Client.Execute` (client.go lines
107-120): the JSON decoder first writes the response's `data` payload into
the caller-supplied output value, and only afterwards is the `Errors` list
inspected; a non-empty list yields (a pointer to) its first element. -/
def executeResponsePhase {α : Type} (resp : GqlResponse α) (out : α) :
    α × Option GqlError :=
  let out' := match resp.data with
    | some d => d
    | none => out
  (out', match resp.errors with
    | [] => none
    | e :: _ => some e)

/-- A file upload (`Upload` in gqlclient): filename, MIME type, and an
opaque handle standing for the `io.Reader` body. -/
structure Upload where
  filename : String
  mimeType : String
  body : Nat
deriving DecidableEq, Repr

/-- The dynamic shape of a Go value passed to `Operation.Var`, as
discriminated by its `switch v := v.(type)` type switch. -/
inductive VarValue where
  | upload (u : Upload)
  | uploadPtr (u : Option Upload)
  | uploadList (us : List Upload)
  | uploadPtrList (us : List (Option Upload))
  | listOf (vs : List VarValue)
  | other
deriving Repr

/-- The uploads recorded by the type switch in `Operation.Var` (client.go
lines 44-63); a value of any shape other than `Upload`, non-nil `*Upload`,
`[]Upload`, `[]*Upload` records none. -/
def collectUploads (k : String) : VarValue → List (String × Upload)
  | .upload u => [(k, u)]
  | .uploadPtr (some u) => [(k, u)]
  | .uploadPtr none => []
  | .uploadList us =>
      us.enum.map (fun p => (k ++ "." ++ toString p.1, p.2))
  | .uploadPtrList us =>
      us.enum.filterMap
        (fun p => p.2.map (fun u => (k ++ "." ++ toString p.1, u)))
  | .listOf _ => []
  | .other => []

/-- An in-flight operation (`Operation` in client.go). -/
structure Operation where
  query : String
  vars : List (String × VarValue)
  uploads : List (String × Upload)

/-- Embedding of `Operation.Var` (client.go lines 34-64): binding the same
name twice panics (modelled as `.error`); otherwise the variable is bound
and the uploads found by the type switch are recorded. -/
def Operation.var (op : Operation) (k : String) (v : VarValue) :
    Except String Operation :=
  if (op.vars.find? (fun p => p.1 = k)).isSome then
    .error ("gqlclient: called Operation.Var twice on " ++ k)
  else
    .ok { op with vars := op.vars ++ [(k, v)],
                  uploads := op.uploads ++ collectUploads k v }

end Client

namespace Gql

theorem genBase_ptrCount (d : Definition) (g : GoType)
    (h : genBase d = .ok g) : g.ptrCount = 0 := by
  unfold genBase at h
  split at h <;> first
    | (cases h; rfl)
    | (split at h <;> cases h; rfl)

/-- C1: a toplevel NonNull reference gets exactly one indirection layer
when the leaf resolves to an Object or Interface definition, and none when
it resolves to a Scalar, Enum, InputObject, or Union definition. -/
theorem toplevel_nonnull_indirection
    (types : List (String × Definition)) (name : String) (d : Definition)
    (hd : lookupType types name = some d) (g : GoType)
    (hg : genType types (.named name true) = .ok g) :
    ((d.kind = .object ∨ d.kind = .interface_) → g.ptrCount = 1) ∧
    ((d.kind = .scalar ∨ d.kind = .enum ∨ d.kind = .inputObject ∨
        d.kind = .union) → g.ptrCount = 0) := by
  unfold genType at hg
  simp only [stripLists] at hg
  rw [hd] at hg
  dsimp only at hg
  constructor
  · rintro (hk | hk) <;>
    · cases hb : genBase d with
      | error e => rw [hb] at hg; cases hg
      | ok b =>
        rw [hb] at hg
        simp only [hk] at hg
        simp only [Bool.not_true, Bool.false_eq_true, if_false, if_true,
          applySlices] at hg
        cases hg
        simp [GoType.ptrCount, genBase_ptrCount d b hb]
  · intro hk
    cases hb : genBase d with
    | error e => rw [hb] at hg; cases hg
    | ok b =>
      rw [hb] at hg
      have : (match d.kind with
          | .object | .interface_ => GoType.ptr b
          | _ => b) = b := by
        rcases hk with hk | hk | hk | hk <;> rw [hk]
      simp only [Bool.not_true, Bool.false_eq_true, if_false, if_true,
        this, applySlices] at hg
      cases hg
      exact genBase_ptrCount d b hb

/-- Witness for `toplevel_nonnull_indirection` at a concrete schema. -/
theorem toplevel_nonnull_indirection_witness :
    lookupType [("Train", ⟨.object, "Train", false, "", [], []⟩)] "Train"
      = some ⟨.object, "Train", false, "", [], []⟩ ∧
    genType [("Train", ⟨.object, "Train", false, "", [], []⟩)]
      (.named "Train" true) = .ok (.ptr (.id "Train")) ∧
    (GoType.ptr (.id "Train")).ptrCount = 1 := by
  refine ⟨by rfl, by rfl, ?_⟩
  have h := toplevel_nonnull_indirection
    [("Train", ⟨.object, "Train", false, "", [], []⟩)] "Train"
    ⟨.object, "Train", false, "", [], []⟩ (by rfl)
    (.ptr (.id "Train")) (by rfl)
  exact h.1 (Or.inl rfl)

theorem ptrCount_applySlices (n : Nat) (g : GoType) :
    (applySlices n g).ptrCount = g.ptrCount := by
  induction n with
  | zero => rfl
  | succ k ih => simp [applySlices, GoType.ptrCount, ih]

/-- C2 counterexample: a nullable `Upload` leaf DOES get a pointer wrapper
(`Upload` is absent from the `"ID", "Time", "Map", "Any"` no-pointer list),
refuting "never adds a nullable-indirection wrapper". -/
theorem upload_nullable_gets_pointer :
    genType [("Upload", ⟨.scalar, "Upload", false, "", [], []⟩)]
      (.named "Upload" false)
      = .ok (.ptr (.qual gqlclientPkg "Upload")) ∧
    (GoType.ptr (.qual gqlclientPkg "Upload")).ptrCount ≠ 0 := by
  exact ⟨rfl, by decide⟩

/-- C2 amended: scalar leaves named `Time`, `Map`, or `Any` never receive a
pointer wrapper regardless of nullability or list nesting; a scalar leaf
named `Upload` receives a pointer exactly when the leaf is not NonNull. -/
theorem convenience_scalar_indirection
    (types : List (String × Definition)) (t : GqlType) (d : Definition)
    (hd : lookupType types (stripLists t).2.1 = some d)
    (hkind : d.kind = .scalar) (g : GoType)
    (hg : genType types t = .ok g) :
    ((d.name = "Time" ∨ d.name = "Map" ∨ d.name = "Any") → g.ptrCount = 0) ∧
    (d.name = "Upload" →
      g.ptrCount = (if (stripLists t).2.2 then 0 else 1)) := by
  unfold genType at hg
  rcases hs : stripLists t with ⟨n, name, nn⟩
  rw [hs] at hg hd
  dsimp only at hg hd ⊢
  rw [hd] at hg
  dsimp only at hg
  have hnoptr : ∀ (b : GoType),
      (match d.kind with
        | .object | .interface_ => GoType.ptr b
        | _ => b) = b := by
    intro b; rw [hkind]
  constructor
  · rintro (hname | hname | hname) <;>
    · have hbe : ∃ b, genBase d = .ok b ∧ b.ptrCount = 0 := by
        unfold genBase
        rw [hname]
        exact ⟨_, rfl, rfl⟩
      obtain ⟨b, hb, hbc⟩ := hbe
      have hz : zeroValueName d.name = true := by rw [hname]; rfl
      rw [hb] at hg
      dsimp only at hg
      rw [hz] at hg
      simp only [hnoptr] at hg
      cases nn <;>
        simp only [Bool.not_false, Bool.not_true, if_true, if_false,
          Bool.false_eq_true, Bool.true_eq_false] at hg <;>
      · cases hg
        rw [ptrCount_applySlices]
        first
        | exact hbc
        | (split <;> exact hbc)
  · intro hname
    have hb : genBase d = .ok (.qual gqlclientPkg "Upload") := by
      unfold genBase; rw [hname]; rfl
    have hz : zeroValueName d.name = false := by rw [hname]; rfl
    rw [hb] at hg
    dsimp only at hg
    rw [hz] at hg
    simp only [hnoptr] at hg
    cases nn <;>
      simp only [Bool.not_false, Bool.not_true, if_true, if_false,
        Bool.false_eq_true, Bool.true_eq_false] at hg
    · cases hg
      rw [ptrCount_applySlices]
      simp [GoType.ptrCount]
    · cases hg
      rw [ptrCount_applySlices]
      simp [GoType.ptrCount]

/-- Witness for `convenience_scalar_indirection` at concrete inputs. -/
theorem convenience_scalar_indirection_witness :
    (GoType.qual gqlclientPkg "Time").ptrCount = 0 := by
  have h := convenience_scalar_indirection
    [("Time", ⟨.scalar, "Time", false, "", [], []⟩)]
    (.named "Time" false) ⟨.scalar, "Time", false, "", [], []⟩
    (by rfl) (by rfl) (.qual gqlclientPkg "Time") (by rfl)
  exact h.1 (Or.inl rfl)

end Gql

namespace Client

/-- C8: `Execute` surfaces exactly the first server-reported error (the
full `GqlError` value, message, locations, path and extensions included);
every later error in the list is discarded, and an empty list yields no
error. -/
theorem execute_returns_first_error {α : Type} (resp : GqlResponse α)
    (out : α) :
    (executeResponsePhase resp out).2 = resp.errors.head? ∧
    (∀ (e : GqlError) (rest : List GqlError), resp.errors = e :: rest →
      (executeResponsePhase resp out).2 = some e) ∧
    (resp.errors = [] → (executeResponsePhase resp out).2 = none) := by
  refine ⟨?_, ?_, ?_⟩
  · rcases h : resp.errors with _ | ⟨e, rest⟩ <;>
      simp [executeResponsePhase, h]
  · intro e rest h
    simp [executeResponsePhase, h]
  · intro h
    simp [executeResponsePhase, h]

/-- Witness for `execute_returns_first_error`: with two errors present only
the first is returned. -/
theorem execute_returns_first_error_witness :
    (executeResponsePhase
      (⟨none, [⟨"first", [], [], ""⟩, ⟨"second", [], [], ""⟩]⟩ :
        GqlResponse Nat) 0).2 = some ⟨"first", [], [], ""⟩ :=
  (execute_returns_first_error
      (⟨none, [⟨"first", [], [], ""⟩, ⟨"second", [], [], ""⟩]⟩ :
        GqlResponse Nat) 0).2.1
    ⟨"first", [], [], ""⟩ [⟨"second", [], [], ""⟩] rfl

/-- C10: the output value is overwritten with the decoded `data` payload
before the `Errors` list is inspected, so a returned protocol error is not
atomic with respect to the caller's output: whenever the response carries
both a data payload and errors, `Execute` both rewrites the output and
returns the first error. -/
theorem execute_error_not_atomic {α : Type} (resp : GqlResponse α)
    (out d : α) (e : GqlError) (rest : List GqlError)
    (hdata : resp.data = some d) (herr : resp.errors = e :: rest) :
    executeResponsePhase resp out = (d, some e) := by
  simp [executeResponsePhase, hdata, herr]

/-- Witness for `execute_error_not_atomic`: a response with both a data
payload and an error overwrites the output (0 becomes 7) while returning
the error. -/
theorem execute_error_not_atomic_witness :
    executeResponsePhase
      (⟨some 7, [⟨"boom", [], [], ""⟩]⟩ : GqlResponse Nat) 0
      = (7, some ⟨"boom", [], [], ""⟩) :=
  execute_error_not_atomic _ 0 7 ⟨"boom", [], [], ""⟩ [] rfl rfl

/-- C7: uploads are collected only for the four shapes of the type switch;
for any other value, in particular a list of lists of uploads, the variable
is still bound, no uploads are collected, and no error is raised. -/
theorem var_deep_nesting_silently_skips_uploads
    (op : Operation) (k : String) (v : VarValue)
    (hfresh : (op.vars.find? (fun p => p.1 = k)).isNone)
    (hshape : (∀ u, v ≠ .upload u) ∧ (∀ u, v ≠ .uploadPtr u) ∧
      (∀ us, v ≠ .uploadList us) ∧ (∀ us, v ≠ .uploadPtrList us)) :
    collectUploads k v = [] ∧
    Operation.var op k v =
      .ok { op with vars := op.vars ++ [(k, v)] } := by
  have hnone : op.vars.find? (fun p => p.1 = k) = none :=
    Option.isNone_iff_eq_none.mp hfresh
  have hcol : collectUploads k v = [] := by
    cases v with
    | upload u => exact absurd rfl (hshape.1 u)
    | uploadPtr u => exact absurd rfl (hshape.2.1 u)
    | uploadList us => exact absurd rfl (hshape.2.2.1 us)
    | uploadPtrList us => exact absurd rfl (hshape.2.2.2 us)
    | listOf vs => rfl
    | other => rfl
  refine ⟨hcol, ?_⟩
  simp [Operation.var, hnone, hcol]

/-- Witness for `var_deep_nesting_silently_skips_uploads` on a list of
lists of uploads. -/
theorem var_deep_nesting_witness :
    collectUploads "f" (.listOf [.uploadList [⟨"a.txt", "text/plain", 0⟩]])
      = [] ∧
    Operation.var ⟨"q", [], []⟩ "f"
        (.listOf [.uploadList [⟨"a.txt", "text/plain", 0⟩]])
      = .ok ⟨"q", [("f", .listOf [.uploadList [⟨"a.txt", "text/plain", 0⟩]])],
          []⟩ :=
  var_deep_nesting_silently_skips_uploads ⟨"q", [], []⟩ "f"
    (.listOf [.uploadList [⟨"a.txt", "text/plain", 0⟩]]) rfl
    (And.intro (fun _ h => nomatch h)
      (And.intro (fun _ h => nomatch h)
        (And.intro (fun _ h => nomatch h) (fun _ h => nomatch h))))

end Client

namespace Gql

theorem find?_assignNew_not_mem (pts : List String) (tn : String)
    (h : tn ∉ pts) :
    (pts.map (fun t => (t, CaseAction.assignNew t))).find?
      (fun c => c.1 = tn) = none := by
  induction pts with
  | nil => rfl
  | cons p rest ih =>
    have hne : ¬(p = tn) := fun he => h (he ▸ List.mem_cons_self p rest)
    simp only [List.map_cons]
    rw [List.find?_cons_of_neg _ (by simpa using hne)]
    exact ih (fun hm => h (List.mem_cons_of_mem _ hm))

theorem find?_assignNew_mem (pts : List String) (tn : String)
    (h : tn ∈ pts) :
    (pts.map (fun t => (t, CaseAction.assignNew t))).find?
      (fun c => c.1 = tn) = some (tn, .assignNew tn) := by
  induction pts with
  | nil => cases h
  | cons p rest ih =>
    simp only [List.map_cons]
    by_cases hp : p = tn
    · subst hp
      rw [List.find?_cons_of_pos _ (by simp)]
    · rw [List.find?_cons_of_neg _ (by simpa using hp)]
      exact ih ((List.mem_cons.mp h).resolve_left (fun he => hp he.symm))

/-- C3: on the `__typename` discriminator, the generated decode routine
yields a no-value success for an Interface when the field is absent (empty
string), a "missing __typename field" error for a Union when absent, an
error naming the unknown string when the name is outside the
possible-types set, and the matching concrete value when inside it. -/
theorem interface_union_typename_dispatch
    (kind : DefinitionKind) (name : String) (pts : List String)
    (hpts : "" ∉ pts) (tn : String) :
    (tn = "" →
      (kind = .interface_ →
        unmarshalDispatch kind name pts tn = .ok none) ∧
      (kind = .union →
        unmarshalDispatch kind name pts tn =
          .err (errPrefix kind name ++ "missing __typename field"))) ∧
    (tn ∉ pts → tn ≠ "" →
      unmarshalDispatch kind name pts tn =
        .err (errPrefix kind name ++ "unknown __typename " ++ goQuote tn)) ∧
    (tn ∈ pts → unmarshalDispatch kind name pts tn = .ok (some tn)) := by
  refine ⟨?_, ?_, ?_⟩
  · rintro rfl
    constructor
    · rintro rfl
      unfold unmarshalDispatch runSwitch genCases
      rw [List.find?_append, find?_assignNew_not_mem _ _ hpts]
      simp [applyAction]
    · rintro rfl
      unfold unmarshalDispatch runSwitch genCases
      rw [List.find?_append, find?_assignNew_not_mem _ _ hpts]
      simp [applyAction]
  · intro hmem hne
    unfold unmarshalDispatch runSwitch genCases
    rw [List.find?_append, find?_assignNew_not_mem _ _ hmem]
    have hne' : ¬("" = tn) := fun he => hne he.symm
    cases kind <;> simp [applyAction, defaultCase, hne']
  · intro hmem
    unfold unmarshalDispatch runSwitch genCases
    rw [List.find?_append, find?_assignNew_mem _ _ hmem]
    simp [applyAction]

/-- Witness for `interface_union_typename_dispatch`: union `Vehicle` with
possible types `Train`, `Bus` and unknown discriminator `Plane`. -/
theorem interface_union_typename_dispatch_witness :
    unmarshalDispatch .union "Vehicle" ["Train", "Bus"] "Plane" =
      .err (errPrefix .union "Vehicle" ++ "unknown __typename " ++
        goQuote "Plane") :=
  (interface_union_typename_dispatch .union "Vehicle" ["Train", "Bus"]
    (by decide) "Plane").2.1 (by decide) (by decide)

/-- C6 counterexample: the distinct enum value names `FOO` and `foo`
derive the same constant identifier `EFoo` inside one Enum. -/
theorem enum_ident_collision :
    genDef ⟨[], none, none, none, fun _ => [], fun _ => [], fun _ _ => ""⟩
      ⟨.enum, "E", false, "", [],
        [⟨"FOO", "", false⟩, ⟨"foo", "", false⟩]⟩ false
      = .ok (some (.enumDecl "E"
          [⟨"", "EFoo", "FOO"⟩, ⟨"", "EFoo", "foo"⟩])) ∧
    ("FOO" : String) ≠ "foo" := ⟨rfl, by decide⟩

end Gql

namespace Gql

theorem char_toNat_ofNat (n : Nat) (h : n < 55296) :
    (Char.ofNat n).toNat = n := by
  unfold Char.ofNat
  rw [dif_pos (Or.inl h)]
  unfold Char.ofNatAux Char.toNat
  simp [UInt32.toNat]

theorem char_eq_of_toNat {c d : Char} (h : c.toNat = d.toNat) : c = d :=
  Char.eq_of_val_eq (UInt32.ext h)

theorem toLower_toNat_upper {c : Char} (h : UpperChar c) :
    c.toLower.toNat = c.toNat + 32 := by
  unfold Char.toLower
  rw [if_pos ⟨h.1, h.2⟩]
  exact char_toNat_ofNat _ (by have := h.2; omega)

theorem toUpper_toNat_lower {c : Char} (h : LowerChar c) :
    c.toUpper.toNat = c.toNat - 32 := by
  unfold Char.toUpper
  rw [if_pos ⟨h.1, h.2⟩]
  exact char_toNat_ofNat _ (by have := h.2; omega)

theorem lowerChar_toLower {c : Char} (h : UpperChar c) :
    LowerChar c.toLower := by
  unfold LowerChar
  rw [toLower_toNat_upper h]
  have h1 := h.1
  have h2 := h.2
  omega

theorem upperChar_toUpper {c : Char} (h : LowerChar c) :
    UpperChar c.toUpper := by
  unfold UpperChar
  rw [toUpper_toNat_lower h]
  have h1 := h.1
  have h2 := h.2
  omega

theorem toLower_inj_upper {c d : Char} (hc : UpperChar c) (hd : UpperChar d)
    (h : c.toLower = d.toLower) : c = d := by
  apply char_eq_of_toNat
  have he := congrArg Char.toNat h
  rw [toLower_toNat_upper hc, toLower_toNat_upper hd] at he
  omega

theorem toUpper_inj_lower {c d : Char} (hc : LowerChar c) (hd : LowerChar d)
    (h : c.toUpper = d.toUpper) : c = d := by
  apply char_eq_of_toNat
  have he := congrArg Char.toNat h
  rw [toUpper_toNat_lower hc, toUpper_toNat_lower hd] at he
  have hc1 := hc.1
  have hd1 := hd.1
  omega

theorem lowerChar_ne_underscore {c : Char} (h : LowerChar c) : c ≠ '_' := by
  intro he
  subst he
  have h1 := h.1
  have : ('_').toNat = 95 := by decide
  omega

theorem isAlpha_of_lowerChar {c : Char} (h : LowerChar c) :
    c.isAlpha = true := by
  have hval1 : (97 : UInt32) ≤ c.val := by
    rw [UInt32.le_def, BitVec.le_def]
    simpa using h.1
  have hval2 : c.val ≤ 122 := by
    rw [UInt32.le_def, BitVec.le_def]
    simpa using h.2
  simp only [Char.isAlpha, Char.isLower, Char.isUpper, Bool.or_eq_true,
    Bool.and_eq_true, decide_eq_true_eq]
  right
  exact ⟨hval1, hval2⟩

theorem splitUnd_ne_nil (l : List Char) : splitUnd l ≠ [] := by
  cases l with
  | nil => simp [splitUnd]
  | cons c rest =>
    unfold splitUnd
    rcases h : splitUnd rest with _ | ⟨w, ws⟩
    · simp
    · dsimp only
      split <;> simp

theorem splitUnd_cons (c : Char) (rest w : List Char)
    (ws : List (List Char)) (h : splitUnd rest = w :: ws) :
    splitUnd (c :: rest) =
      if c = '_' then [] :: w :: ws else (c :: w) :: ws := by
  unfold splitUnd
  rw [h]

theorem splitUnd_word_append (w : List Char) (hw : ∀ c ∈ w, c ≠ '_')
    (l u : List Char) (us : List (List Char)) (h : splitUnd l = u :: us) :
    splitUnd (w ++ l) = (w ++ u) :: us := by
  induction w with
  | nil => simpa using h
  | cons c w2 ih =>
    have hc : c ≠ '_' := hw c (List.mem_cons_self c w2)
    have ih2 := ih (fun x hx => hw x (List.mem_cons_of_mem _ hx))
    rcases hsp : splitUnd (w2 ++ l) with _ | ⟨u2, us2⟩
    · exact absurd hsp (splitUnd_ne_nil _)
    · rw [ih2] at hsp
      cases hsp
      rw [List.cons_append, splitUnd_cons _ _ _ _ ih2, if_neg hc,
        List.cons_append]

theorem splitUnd_joinUnd (ws : List (List Char)) (hne : ws ≠ [])
    (hw : ∀ w ∈ ws, ∀ c ∈ w, c ≠ '_') :
    splitUnd (joinUnd ws) = ws := by
  induction ws with
  | nil => exact absurd rfl hne
  | cons w rest ih =>
    cases rest with
    | nil =>
      have h0 : splitUnd ([] : List Char) = [] :: [] := rfl
      have h1 := splitUnd_word_append w (hw w (List.mem_cons_self w []))
        [] [] [] h0
      simpa using h1
    | cons w2 rest2 =>
      have h1 : splitUnd (joinUnd (w2 :: rest2)) = w2 :: rest2 :=
        ih (by simp) (fun x hx => hw x (List.mem_cons_of_mem _ hx))
      have h2 : splitUnd ('_' :: joinUnd (w2 :: rest2)) =
          [] :: w2 :: rest2 := by
        rw [splitUnd_cons _ _ _ _ h1, if_pos rfl]
      have h3 := splitUnd_word_append w
        (hw w (List.mem_cons_self w (w2 :: rest2))) _ _ _ h2
      have h4 : joinUnd (w :: w2 :: rest2) = w ++ '_' :: joinUnd (w2 :: rest2) := rfl
      rw [h4, h3, List.append_nil]

theorem map_toLower_joinUnd (ws : List (List Char)) :
    (joinUnd ws).map Char.toLower =
      joinUnd (ws.map (fun w => w.map Char.toLower)) := by
  induction ws with
  | nil => rfl
  | cons w rest ih =>
    cases rest with
    | nil => rfl
    | cons w2 rest2 =>
      have h4 : joinUnd (w :: w2 :: rest2) =
          w ++ '_' :: joinUnd (w2 :: rest2) := rfl
      have h5 : joinUnd ((w :: w2 :: rest2).map (fun w => w.map Char.toLower)) =
          w.map Char.toLower ++ '_' ::
            joinUnd ((w2 :: rest2).map (fun w => w.map Char.toLower)) := rfl
      rw [h4, h5, List.map_append, List.map_cons,
        show Char.toLower '_' = '_' from by decide, ih]

theorem isGoSeparator_lowerChar {c : Char} (h : LowerChar c) :
    isGoSeparator c = false := by
  unfold isGoSeparator
  simp [Char.isAlphanum, isAlpha_of_lowerChar h]

theorem goTitleAux_nonsep (t : List Char)
    (h : ∀ c ∈ t, isGoSeparator c = false) : goTitleAux false t = t := by
  induction t with
  | nil => rfl
  | cons c t2 ih =>
    unfold goTitleAux
    rw [h c (List.mem_cons_self c t2),
      ih (fun x hx => h x (List.mem_cons_of_mem _ hx))]
    simp

theorem goTitle_lower_word (c : Char) (t : List Char) (hc : LowerChar c)
    (ht : ∀ x ∈ t, LowerChar x) : goTitle (c :: t) = c.toUpper :: t := by
  unfold goTitle goTitleAux
  rw [if_pos rfl, isGoSeparator_lowerChar hc,
    goTitleAux_nonsep t (fun x hx => isGoSeparator_lowerChar (ht x hx))]

theorem capword_flatten_shape (l : List (List Char))
    (h : ∀ w ∈ l, CapWord w) :
    l.flatten = [] ∨ ∃ c t, l.flatten = c :: t ∧ UpperChar c := by
  cases l with
  | nil => left; rfl
  | cons w r =>
    right
    obtain ⟨c, t, rfl, hc, _⟩ := h w (List.mem_cons_self w r)
    exact ⟨c, t ++ r.flatten, by simp, hc⟩

theorem upperChar_ne_lowerChar {c d : Char} (hc : UpperChar c)
    (hd : LowerChar d) : c ≠ d := by
  intro he
  subst he
  have h1 := hc.2
  have h2 := hd.1
  omega

theorem lower_prefix_unique (t1 : List Char) :
    ∀ (t2 j1 j2 : List Char),
    (∀ x ∈ t1, LowerChar x) → (∀ x ∈ t2, LowerChar x) →
    (j1 = [] ∨ ∃ c r, j1 = c :: r ∧ UpperChar c) →
    (j2 = [] ∨ ∃ c r, j2 = c :: r ∧ UpperChar c) →
    t1 ++ j1 = t2 ++ j2 → t1 = t2 ∧ j1 = j2 := by
  induction t1 with
  | nil =>
    intro t2 j1 j2 h1 h2 s1 s2 he
    cases t2 with
    | nil => exact ⟨rfl, he⟩
    | cons c2 t2r =>
      exfalso
      rcases s1 with rfl | ⟨c, r, rfl, hc⟩
      · simp at he
      · simp only [List.nil_append, List.cons_append, List.cons.injEq] at he
        exact upperChar_ne_lowerChar hc (h2 c2 (List.mem_cons_self c2 t2r))
          he.1
  | cons c1 t1r ih =>
    intro t2 j1 j2 h1 h2 s1 s2 he
    cases t2 with
    | nil =>
      exfalso
      rcases s2 with rfl | ⟨c, r, rfl, hc⟩
      · simp at he
      · simp only [List.nil_append, List.cons_append, List.cons.injEq] at he
        exact upperChar_ne_lowerChar hc (h1 c1 (List.mem_cons_self c1 t1r))
          he.1.symm
    | cons c2 t2r =>
      simp only [List.cons_append, List.cons.injEq] at he
      obtain ⟨hcc, hrest⟩ := he
      subst hcc
      obtain ⟨hte, hje⟩ := ih t2r j1 j2
        (fun x hx => h1 x (List.mem_cons_of_mem _ hx))
        (fun x hx => h2 x (List.mem_cons_of_mem _ hx)) s1 s2 hrest
      exact ⟨by rw [hte], hje⟩

theorem flatten_capwords_inj (l1 : List (List Char)) :
    ∀ (l2 : List (List Char)),
    (∀ w ∈ l1, CapWord w) → (∀ w ∈ l2, CapWord w) →
    l1.flatten = l2.flatten → l1 = l2 := by
  induction l1 with
  | nil =>
    intro l2 h1 h2 he
    cases l2 with
    | nil => rfl
    | cons w r =>
      obtain ⟨c, t, rfl, _, _⟩ := h2 w (List.mem_cons_self w r)
      simp at he
  | cons w1 r1 ih =>
    intro l2 h1 h2 he
    cases l2 with
    | nil =>
      obtain ⟨c, t, rfl, _, _⟩ := h1 w1 (List.mem_cons_self w1 r1)
      simp at he
    | cons w2 r2 =>
      obtain ⟨c1, t1, rfl, hc1, ht1⟩ := h1 _ (List.mem_cons_self w1 r1)
      obtain ⟨c2, t2, rfl, hc2, ht2⟩ := h2 _ (List.mem_cons_self w2 r2)
      simp only [List.flatten_cons, List.cons_append, List.cons.injEq] at he
      obtain ⟨hcc, hrest⟩ := he
      subst hcc
      obtain ⟨hte, hje⟩ := lower_prefix_unique t1 t2 r1.flatten r2.flatten
        ht1 ht2
        (capword_flatten_shape r1 (fun w hw => h1 w (List.mem_cons_of_mem _ hw)))
        (capword_flatten_shape r2 (fun w hw => h2 w (List.mem_cons_of_mem _ hw)))
        hrest
      subst hte
      rw [ih r2 (fun w hw => h1 w (List.mem_cons_of_mem _ hw))
        (fun w hw => h2 w (List.mem_cons_of_mem _ hw)) hje]

theorem goTitle_inj_lower (w1 w2 : List Char)
    (h1 : w1 ≠ [] ∧ ∀ x ∈ w1, LowerChar x)
    (h2 : w2 ≠ [] ∧ ∀ x ∈ w2, LowerChar x)
    (he : goTitle w1 = goTitle w2) : w1 = w2 := by
  rcases w1 with _ | ⟨c1, t1⟩
  · exact absurd rfl h1.1
  rcases w2 with _ | ⟨c2, t2⟩
  · exact absurd rfl h2.1
  rw [goTitle_lower_word c1 t1 (h1.2 c1 (List.mem_cons_self c1 t1))
      (fun x hx => h1.2 x (List.mem_cons_of_mem _ hx)),
    goTitle_lower_word c2 t2 (h2.2 c2 (List.mem_cons_self c2 t2))
      (fun x hx => h2.2 x (List.mem_cons_of_mem _ hx))] at he
  simp only [List.cons.injEq] at he
  obtain ⟨hu, ht⟩ := he
  rw [toUpper_inj_lower (h1.2 c1 (List.mem_cons_self c1 t1))
    (h2.2 c2 (List.mem_cons_self c2 t2)) hu, ht]

theorem map_goTitle_inj (lws1 : List (List Char)) :
    ∀ (lws2 : List (List Char)),
    (∀ w ∈ lws1, w ≠ [] ∧ ∀ x ∈ w, LowerChar x) →
    (∀ w ∈ lws2, w ≠ [] ∧ ∀ x ∈ w, LowerChar x) →
    lws1.map goTitle = lws2.map goTitle → lws1 = lws2 := by
  induction lws1 with
  | nil =>
    intro lws2 h1 h2 he
    cases lws2 with
    | nil => rfl
    | cons w r => simp at he
  | cons w1 r1 ih =>
    intro lws2 h1 h2 he
    cases lws2 with
    | nil => simp at he
    | cons w2 r2 =>
      simp only [List.map_cons, List.cons.injEq] at he
      rw [goTitle_inj_lower w1 w2 (h1 _ (List.mem_cons_self w1 r1))
          (h2 _ (List.mem_cons_self w2 r2)) he.1,
        ih r2 (fun w hw => h1 w (List.mem_cons_of_mem _ hw))
          (fun w hw => h2 w (List.mem_cons_of_mem _ hw)) he.2]

theorem map_toLower_word_inj (w1 : List Char) :
    ∀ (w2 : List Char), (∀ c ∈ w1, UpperChar c) → (∀ c ∈ w2, UpperChar c) →
    w1.map Char.toLower = w2.map Char.toLower → w1 = w2 := by
  induction w1 with
  | nil =>
    intro w2 h1 h2 he
    cases w2 with
    | nil => rfl
    | cons c r => simp at he
  | cons c1 r1 ih =>
    intro w2 h1 h2 he
    cases w2 with
    | nil => simp at he
    | cons c2 r2 =>
      simp only [List.map_cons, List.cons.injEq] at he
      rw [toLower_inj_upper (h1 _ (List.mem_cons_self c1 r1))
          (h2 _ (List.mem_cons_self c2 r2)) he.1,
        ih r2 (fun c hc => h1 c (List.mem_cons_of_mem _ hc))
          (fun c hc => h2 c (List.mem_cons_of_mem _ hc)) he.2]

theorem map_map_toLower_inj (ws1 : List (List Char)) :
    ∀ (ws2 : List (List Char)),
    (∀ w ∈ ws1, ∀ c ∈ w, UpperChar c) → (∀ w ∈ ws2, ∀ c ∈ w, UpperChar c) →
    ws1.map (fun w => w.map Char.toLower) =
      ws2.map (fun w => w.map Char.toLower) → ws1 = ws2 := by
  induction ws1 with
  | nil =>
    intro ws2 h1 h2 he
    cases ws2 with
    | nil => rfl
    | cons w r => simp at he
  | cons w1 r1 ih =>
    intro ws2 h1 h2 he
    cases ws2 with
    | nil => simp at he
    | cons w2 r2 =>
      simp only [List.map_cons, List.cons.injEq] at he
      rw [map_toLower_word_inj w1 w2 (h1 _ (List.mem_cons_self w1 r1))
          (h2 _ (List.mem_cons_self w2 r2)) he.1,
        ih r2 (fun w hw => h1 w (List.mem_cons_of_mem _ hw))
          (fun w hw => h2 w (List.mem_cons_of_mem _ hw)) he.2]

theorem string_ext {s t : String} (h : s.data = t.data) : s = t := by
  cases s
  cases t
  simp_all

/-- C6 amended: restricted to strict upper-snake-case value names (the
canonical GraphQL enum naming convention: nonempty words of ASCII
uppercase letters separated by single underscores), the derived constant
identifiers are injective within one Enum; outside that format distinct
names can collide (see the counterexample). -/
theorem enum_ident_injective (enumName v1 v2 : String)
    (ws1 ws2 : List (List Char))
    (h1 : SnakeName ws1 v1.data) (h2 : SnakeName ws2 v2.data)
    (hne : v1 ≠ v2) :
    enumConstIdent enumName v1 ≠ enumConstIdent enumName v2 := by
  obtain ⟨hne1, hw1, hj1⟩ := h1
  obtain ⟨hne2, hw2, hj2⟩ := h2
  intro he
  apply hne
  have hd : enumConstIdentL enumName.data v1.data =
      enumConstIdentL enumName.data v2.data := congrArg String.data he
  unfold enumConstIdentL at hd
  have hx := List.append_cancel_left hd
  have hsplit : ∀ (ws : List (List Char)), ws ≠ [] →
      (∀ w ∈ ws, UpperWord w) →
      splitUnd ((joinUnd ws).map Char.toLower) =
        ws.map (fun w => w.map Char.toLower) := by
    intro ws hwne hw
    rw [map_toLower_joinUnd]
    apply splitUnd_joinUnd
    · simpa using hwne
    · intro w hwm c hc
      obtain ⟨w0, hw0, rfl⟩ := List.mem_map.mp hwm
      obtain ⟨c0, hc0, rfl⟩ := List.mem_map.mp hc
      exact lowerChar_ne_underscore (lowerChar_toLower ((hw w0 hw0).2 c0 hc0))
  rw [hj1, hj2, hsplit ws1 hne1 hw1, hsplit ws2 hne2 hw2] at hx
  have hcap : ∀ (ws : List (List Char)), (∀ w ∈ ws, UpperWord w) →
      ∀ w ∈ (ws.map (fun w => w.map Char.toLower)).map goTitle, CapWord w := by
    intro ws hw w hwmem
    obtain ⟨lw, hlw, rfl⟩ := List.mem_map.mp hwmem
    obtain ⟨w0, hw0, rfl⟩ := List.mem_map.mp hlw
    obtain ⟨hw0ne, hw0u⟩ := hw w0 hw0
    rcases w0 with _ | ⟨c0, t0⟩
    · exact absurd rfl hw0ne
    · refine ⟨(Char.toLower c0).toUpper, t0.map Char.toLower, ?_, ?_, ?_⟩
      · rw [List.map_cons]
        exact goTitle_lower_word _ _
          (lowerChar_toLower (hw0u c0 (List.mem_cons_self c0 t0)))
          (fun x hxm => by
            obtain ⟨x0, hx0, rfl⟩ := List.mem_map.mp hxm
            exact lowerChar_toLower (hw0u x0 (List.mem_cons_of_mem _ hx0)))
      · exact upperChar_toUpper
          (lowerChar_toLower (hw0u c0 (List.mem_cons_self c0 t0)))
      · intro x hxm
        obtain ⟨x0, hx0, rfl⟩ := List.mem_map.mp hxm
        exact lowerChar_toLower (hw0u x0 (List.mem_cons_of_mem _ hx0))
  have hmg := flatten_capwords_inj _ _ (hcap ws1 hw1) (hcap ws2 hw2) hx
  have hlow : ∀ (ws : List (List Char)), (∀ w ∈ ws, UpperWord w) →
      ∀ w ∈ ws.map (fun w => w.map Char.toLower),
        w ≠ [] ∧ ∀ x ∈ w, LowerChar x := by
    intro ws hw w hwmem
    obtain ⟨w0, hw0, rfl⟩ := List.mem_map.mp hwmem
    obtain ⟨hw0ne, hw0u⟩ := hw w0 hw0
    constructor
    · simpa using hw0ne
    · intro x hxm
      obtain ⟨x0, hx0, rfl⟩ := List.mem_map.mp hxm
      exact lowerChar_toLower (hw0u x0 hx0)
  have hml := map_goTitle_inj _ _ (hlow ws1 hw1) (hlow ws2 hw2) hmg
  have hws := map_map_toLower_inj ws1 ws2 (fun w hwm => (hw1 w hwm).2)
    (fun w hwm => (hw2 w hwm).2) hml
  apply string_ext
  rw [hj1, hj2, hws]

/-- Witness for `enum_ident_injective`: `FOO_BAR` and `FOO` derive
distinct identifiers. -/
theorem enum_ident_injective_witness :
    enumConstIdent "E" "FOO_BAR" ≠ enumConstIdent "E" "FOO" :=
  enum_ident_injective "E" "FOO_BAR" "FOO"
    [['F', 'O', 'O'], ['B', 'A', 'R']] [['F', 'O', 'O']]
    (by decide) (by decide) (by decide)

mutual
theorem collectFragsSel_spec (acc : Finset String) (s : Selection)
    (r : Finset String) (h : collectFragsSel acc s = .ok r) :
    ∀ f, f ∈ r ↔ f ∈ acc ∨ ReachSel f s := by
  intro f
  cases s with
  | field name aliasName ty sels =>
    unfold collectFragsSel at h
    split at h
    · cases h
    · have hs := collectFrags_spec acc sels r h f
      rw [hs]
      constructor
      · rintro (ha | hr)
        · exact Or.inl ha
        · exact Or.inr (ReachSel.fieldR hr)
      · rintro (ha | hr)
        · exact Or.inl ha
        · cases hr with
          | fieldR hr2 => exact Or.inr hr2
  | spread fragName fragSels =>
    unfold collectFragsSel at h
    have hs := collectFrags_spec (insert fragName acc) fragSels r h f
    rw [hs, Finset.mem_insert]
    constructor
    · rintro ((rfl | ha) | hr)
      · exact Or.inr ReachSel.spreadHere
      · exact Or.inl ha
      · exact Or.inr (ReachSel.spreadR hr)
    · rintro (ha | hr)
      · exact Or.inl (Or.inr ha)
      · cases hr with
        | spreadHere => exact Or.inl (Or.inl rfl)
        | spreadR hr2 => exact Or.inr hr2
  | inline sels =>
    unfold collectFragsSel at h
    have hs := collectFrags_spec acc sels r h f
    rw [hs]
    constructor
    · rintro (ha | hr)
      · exact Or.inl ha
      · exact Or.inr (ReachSel.inlineR hr)
    · rintro (ha | hr)
      · exact Or.inl ha
      · cases hr with
        | inlineR hr2 => exact Or.inr hr2

theorem collectFrags_spec (acc : Finset String) (ss : SelectionSet)
    (r : Finset String) (h : collectFrags acc ss = .ok r) :
    ∀ f, f ∈ r ↔ f ∈ acc ∨ ReachSet f ss := by
  intro f
  cases ss with
  | nil =>
    unfold collectFrags at h
    cases h
    constructor
    · exact fun ha => Or.inl ha
    · rintro (ha | hr)
      · exact ha
      · cases hr
  | cons s rest =>
    unfold collectFrags at h
    cases hsel : collectFragsSel acc s with
    | error e =>
      rw [hsel] at h
      cases h
    | ok mid =>
      rw [hsel] at h
      have h1 := collectFragsSel_spec acc s mid hsel f
      have h2 := collectFrags_spec mid rest r h f
      rw [h2, h1]
      constructor
      · rintro ((ha | hs2) | hr)
        · exact Or.inl ha
        · exact Or.inr (ReachSet.head hs2)
        · exact Or.inr (ReachSet.tail hr)
      · rintro (ha | hr)
        · exact Or.inl (Or.inl ha)
        · cases hr with
          | head hs2 => exact Or.inl (Or.inr hs2)
          | tail hr2 => exact Or.inr hr2
end

/-- C5: whenever fragment collection completes, the returned set contains
exactly the fragment names transitively reachable through fragment spreads
(through fields, other fragments and inline fragments); as a set, each
fragment appears exactly once no matter how often it is spread. -/
theorem collectFragments_exact (ss : SelectionSet) (r : Finset String)
    (h : collectFrags ∅ ss = .ok r) : ∀ f, f ∈ r ↔ ReachSet f ss := by
  intro f
  have hs := collectFrags_spec ∅ ss r h f
  simpa using hs

/-- Witness for `collectFragments_exact`: a selection set spreading the
same fragment twice collects it once. -/
theorem collectFragments_exact_witness :
    ("F" ∈ ({"F"} : Finset String)) ↔
      ReachSet "F" (.cons (.spread "F" .nil)
        (.cons (.spread "F" .nil) .nil)) :=
  collectFragments_exact
    (.cons (.spread "F" .nil) (.cons (.spread "F" .nil) .nil))
    {"F"} rfl "F"

theorem find?_key_perm {t1 t2 : List (String × Definition)}
    (hperm : t1.Perm t2) (hnd : (t1.map Prod.fst).Nodup) (name : String) :
    t1.find? (fun p => p.1 = name) = t2.find? (fun p => p.1 = name) := by
  cases hf : t1.find? (fun p => p.1 = name) with
  | none =>
    have hnone := List.find?_eq_none.mp hf
    symm
    apply List.find?_eq_none.mpr
    intro x hx
    exact hnone x (hperm.mem_iff.mpr hx)
  | some p =>
    have hp : p ∈ t1 := List.mem_of_find?_eq_some hf
    have hpp := List.find?_some hf
    cases hf2 : t2.find? (fun p => p.1 = name) with
    | none =>
      exact absurd hpp
        (by simpa using List.find?_eq_none.mp hf2 p (hperm.subset hp))
    | some q =>
      have hq2 : q ∈ t2 := List.mem_of_find?_eq_some hf2
      have hqq := List.find?_some hf2
      have hq1 : q ∈ t1 := hperm.symm.subset hq2
      have hpn : p.1 = name := by simpa using hpp
      have hqn : q.1 = name := by simpa using hqq
      have hkey : p.1 = q.1 := by rw [hpn, hqn]
      rw [List.inj_on_of_nodup_map hnd hp hq1 hkey]

theorem lookupType_congr {t1 t2 : List (String × Definition)}
    (hperm : t1.Perm t2) (hnd : (t1.map Prod.fst).Nodup) (name : String) :
    lookupType t1 name = lookupType t2 name := by
  unfold lookupType
  rw [find?_key_perm hperm hnd name]

theorem genType_congr {t1 t2 : List (String × Definition)}
    (h : ∀ n, lookupType t1 n = lookupType t2 n) (t : GqlType) :
    genType t1 t = genType t2 t := by
  unfold genType
  simp only [h]

theorem genFields_congr {t1 t2 : List (String × Definition)}
    (h : ∀ n, lookupType t1 n = lookupType t2 n) (odep : Bool)
    (fs : List FieldDef) : genFields t1 odep fs = genFields t2 odep fs := by
  induction fs with
  | nil => rfl
  | cons f rest ih =>
    unfold genFields
    rw [genType_congr h f.type, ih]

theorem genDef_congr {t1 t2 : List (String × Definition)}
    (h : ∀ n, lookupType t1 n = lookupType t2 n)
    (qn mn sn : Option String) (pts impls : String → List String)
    (fq : OperationDef → List String → String) (d : Definition)
    (odep : Bool) :
    genDef ⟨t1, qn, mn, sn, pts, impls, fq⟩ d odep =
      genDef ⟨t2, qn, mn, sn, pts, impls, fq⟩ d odep := by
  simp only [genDef, genFields_congr h]

theorem genOpParams_congr {t1 t2 : List (String × Definition)}
    (h : ∀ n, lookupType t1 n = lookupType t2 n)
    (vs : List (String × GqlType)) :
    genOpParams t1 vs = genOpParams t2 vs := by
  induction vs with
  | nil => rfl
  | cons v rest ih =>
    unfold genOpParams
    rw [genType_congr h v.2, ih]

theorem genOpOuts_congr {t1 t2 : List (String × Definition)}
    (h : ∀ n, lookupType t1 n = lookupType t2 n) :
    ∀ (ss : SelectionSet), genOpOuts t1 ss = genOpOuts t2 ss
  | .nil => rfl
  | .cons s rest => by
    cases s with
    | field name aliasName ftype sels =>
      unfold genOpOuts
      dsimp only
      rw [genType_congr h ftype, genOpOuts_congr h rest]
    | spread fragName fragSels => rfl
    | inline sels => rfl

theorem genOp_congr {t1 t2 : List (String × Definition)}
    (h : ∀ n, lookupType t1 n = lookupType t2 n)
    (qn mn sn : Option String) (pts impls : String → List String)
    (fq : OperationDef → List String → String) (op : OperationDef) :
    genOp ⟨t1, qn, mn, sn, pts, impls, fq⟩ op =
      genOp ⟨t2, qn, mn, sn, pts, impls, fq⟩ op := by
  simp only [genOp, genOpParams_congr h, genOpOuts_congr h]

theorem genImpls_congr {t1 t2 : List (String × Definition)}
    (h : ∀ n, lookupType t1 n = lookupType t2 n)
    (qn mn sn : Option String) (pts impls : String → List String)
    (fq : OperationDef → List String → String) (defName : String)
    (ifcs : List String) :
    genImpls ⟨t1, qn, mn, sn, pts, impls, fq⟩ defName ifcs =
      genImpls ⟨t2, qn, mn, sn, pts, impls, fq⟩ defName ifcs := by
  induction ifcs with
  | nil => rfl
  | cons ifc rest ih =>
    unfold genImpls
    dsimp only
    rw [genType_congr h (.named defName false), ih]

theorem genDefEmit_congr {t1 t2 : List (String × Definition)}
    (h : ∀ n, lookupType t1 n = lookupType t2 n)
    (qn mn sn : Option String) (pts impls : String → List String)
    (fq : OperationDef → List String → String) (odep : Bool)
    (name : String) :
    genDefEmit ⟨t1, qn, mn, sn, pts, impls, fq⟩ odep name =
      genDefEmit ⟨t2, qn, mn, sn, pts, impls, fq⟩ odep name := by
  simp only [genDefEmit, h name, genDef_congr h qn mn sn pts impls fq,
    genImpls_congr h qn mn sn pts impls fq]

theorem genAllDefs_congr {t1 t2 : List (String × Definition)}
    (h : ∀ n, lookupType t1 n = lookupType t2 n)
    (qn mn sn : Option String) (pts impls : String → List String)
    (fq : OperationDef → List String → String) (odep : Bool)
    (names : List String) :
    genAllDefs ⟨t1, qn, mn, sn, pts, impls, fq⟩ odep names =
      genAllDefs ⟨t2, qn, mn, sn, pts, impls, fq⟩ odep names := by
  induction names with
  | nil => rfl
  | cons n rest ih =>
    simp only [genAllDefs, genDefEmit_congr h qn mn sn pts impls fq odep n,
      ih]

theorem genAllOps_congr {t1 t2 : List (String × Definition)}
    (h : ∀ n, lookupType t1 n = lookupType t2 n)
    (qn mn sn : Option String) (pts impls : String → List String)
    (fq : OperationDef → List String → String) (ops : List OperationDef) :
    genAllOps ⟨t1, qn, mn, sn, pts, impls, fq⟩ ops =
      genAllOps ⟨t2, qn, mn, sn, pts, impls, fq⟩ ops := by
  induction ops with
  | nil => rfl
  | cons op rest ih =>
    simp only [genAllOps, genOp_congr h qn mn sn pts impls fq op, ih]

theorem collectTypeNames_perm {t1 t2 : List (String × Definition)}
    (hperm : t1.Perm t2) (qn mn sn : Option String)
    (pts impls : String → List String)
    (fq : OperationDef → List String → String) :
    (collectTypeNames ⟨t1, qn, mn, sn, pts, impls, fq⟩).Perm
      (collectTypeNames ⟨t2, qn, mn, sn, pts, impls, fq⟩) := by
  unfold collectTypeNames
  exact hperm.filterMap _

theorem sortStrings_sorted (l : List String) :
    (sortStrings l).Sorted (fun a b : String => a ≤ b) := by
  have hp := @List.sorted_mergeSort String
    (fun a b : String => decide (a ≤ b))
    (fun a b c hab hbc => by
      simp only [decide_eq_true_eq] at *
      exact le_trans hab hbc)
    (fun a b => by simp [le_total]) l
  exact hp.imp (fun hab => of_decide_eq_true hab)

theorem sortStrings_eq_of_perm {l1 l2 : List String} (h : l1.Perm l2) :
    sortStrings l1 = sortStrings l2 :=
  List.eq_of_perm_of_sorted
    ((List.mergeSort_perm l1 _).trans
      (h.trans (List.mergeSort_perm l2 _).symm))
    (sortStrings_sorted l1) (sortStrings_sorted l2)

/-- C4: the generated declaration sequence does not depend on the schema
map's iteration order: for any two iteration orders of the same type map
(permutations of each other, with the map's keys unique), the driver
produces identical output — type definitions in lexicographically sorted
name order followed by operations in document-supply order. -/
theorem generate_deterministic (t1 t2 : List (String × Definition))
    (qn mn sn : Option String) (pts impls : String → List String)
    (fq : OperationDef → List String → String) (odep : Bool)
    (queries : List (List OperationDef))
    (hperm : t1.Perm t2) (hnd : (t1.map Prod.fst).Nodup) :
    generateDecls ⟨t1, qn, mn, sn, pts, impls, fq⟩ odep queries =
      generateDecls ⟨t2, qn, mn, sn, pts, impls, fq⟩ odep queries := by
  have h := lookupType_congr hperm hnd
  have hnames :
      sortStrings (collectTypeNames ⟨t1, qn, mn, sn, pts, impls, fq⟩) =
        sortStrings (collectTypeNames ⟨t2, qn, mn, sn, pts, impls, fq⟩) :=
    sortStrings_eq_of_perm (collectTypeNames_perm hperm qn mn sn pts impls fq)
  unfold generateDecls
  rw [hnames, genAllDefs_congr h qn mn sn pts impls fq odep,
    genAllOps_congr h qn mn sn pts impls fq]

/-- Witness for `generate_deterministic`: two iteration orders of a
two-type schema generate the same declarations. -/
theorem generate_deterministic_witness :
    generateDecls
      ⟨[("B", ⟨.scalar, "B", false, "", [], []⟩),
        ("A", ⟨.scalar, "A", false, "", [], []⟩)], none, none, none,
        fun _ => [], fun _ => [], fun _ _ => ""⟩ false [] =
    generateDecls
      ⟨[("A", ⟨.scalar, "A", false, "", [], []⟩),
        ("B", ⟨.scalar, "B", false, "", [], []⟩)], none, none, none,
        fun _ => [], fun _ => [], fun _ _ => ""⟩ false [] :=
  generate_deterministic
    [("B", ⟨.scalar, "B", false, "", [], []⟩),
     ("A", ⟨.scalar, "A", false, "", [], []⟩)]
    [("A", ⟨.scalar, "A", false, "", [], []⟩),
     ("B", ⟨.scalar, "B", false, "", [], []⟩)]
    none none none (fun _ => []) (fun _ => []) (fun _ _ => "") false []
    (List.Perm.swap _ _ _) (by decide)

end Gql
